import Mathlib

/-!
Verification model of the recursive reasoning agent (`llmware/agents.py`,
class `RecursiveAgent`).  The agent implementation itself is not present in
the source tree; only its unit tests are (`tests/test_recursive_agent.py`).
All component definitions below are therefore modelled from the
natural-language specification (spec.md §3-§7), with the unit tests pinning
concrete behavior.
-/

namespace RecAgent

/-- Whitespace characters for argument trimming (space, tab, newline, CR). -/
def isWs (c : Char) : Bool := c = ' ' || c = '\t' || c = '\n' || c = '\r'

/-- Trim leading and trailing whitespace from a character list. -/
def trimChars (s : List Char) : List Char :=
  ((s.dropWhile isWs).reverse.dropWhile isWs).reverse

/-- Errors surfaced by the parsing layers (spec.md §7). -/
inductive AgentError
  | malformedArgument
  | unrecognizedCommand
deriving DecidableEq, Repr

/-- Modelled from the spec: the quoted-argument scanner inside
`RecursiveAgent._parse_args_robust` (missing from src; spec.md §4.1).
Consumes characters of a quoted argument after its opening double quote:
the two-character sequence backslash–double-quote is unescaped to a literal
double quote; an unescaped double quote closes the argument; commas and
newlines are kept verbatim.  Returns the argument content and the remaining
input after the closing quote; an unterminated quote is
`MalformedArgumentError`. -/
def parseQuoted : List Char → Except AgentError (List Char × List Char)
  | [] => .error .malformedArgument
  | [c] => if c = '"' then .ok ([], []) else .error .malformedArgument
  | c :: d :: rest2 =>
    if c = '"' then .ok ([], d :: rest2)
    else if c = '\\' ∧ d = '"' then
      (parseQuoted rest2).map (fun p => ('"' :: p.1, p.2))
    else
      (parseQuoted (d :: rest2)).map (fun p => (c :: p.1, p.2))

/-- Modelled from the spec: top-level loop of
`RecursiveAgent._parse_args_robust` (missing from src; spec.md §4.1).
Arguments are separated by commas at the top level only; an argument whose
first non-blank character is a double quote is quoted (content preserved
verbatim, escapes handled by `parseQuoted`); unquoted arguments run to the
next top-level comma and are trimmed of surrounding whitespace.  `fuel`
bounds recursion; callers supply more fuel than arguments. -/
def parseArgsAux : Nat → List Char → Except AgentError (List (List Char))
  | 0, _ => .error .malformedArgument
  | fuel + 1, s =>
    let t := s.dropWhile isWs
    match t with
    | [] => .ok [[]]
    | c :: rest =>
      if c = '"' then
        match parseQuoted rest with
        | .error e => .error e
        | .ok (content, r) =>
          match r.dropWhile (fun x => x != ',') with
          | [] => .ok [content]
          | _ :: r3 => (parseArgsAux fuel r3).map (fun args => content :: args)
      else
        match t.dropWhile (fun x => x != ',') with
        | [] => .ok [trimChars t]
        | _ :: r3 =>
          (parseArgsAux fuel r3).map
            (fun args => trimChars (t.takeWhile (fun x => x != ',')) :: args)

/-- Modelled from the spec: `RecursiveAgent._parse_args_robust` (missing from
src; spec.md §4.1), on whole strings. -/
def parseArgs (s : String) : Except AgentError (List String) :=
  (parseArgsAux (s.data.length + 1) s.data).map (List.map String.mk)

/-- Render a string as a quoted argument: wrap in double quotes after
escaping each embedded double quote as backslash–double-quote (the rendering
named by spec.md §8, "Quoting round-trip"): the character-level escaping. -/
def escapeArg : List Char → List Char
  | [] => []
  | c :: r => if c = '"' then '\\' :: '"' :: escapeArg r else c :: escapeArg r

/-- Render a string as a quoted, escaped argument (spec.md §8). -/
def renderQuoted (s : String) : String :=
  String.mk ('"' :: (escapeArg s.data ++ ['"']))

/-- Quote characters stripped from an ANSWER argument: double or single
quote (spec.md §4.2). -/
def isQuoteChar (c : Char) : Bool := c = '"' || c = Char.ofNat 39

/-- Modelled from the spec: the ANSWER-argument cleanup of the command parser
(missing from src; spec.md §4.2): strips one single leading and one single
trailing quote character from the sole argument. -/
def stripOuterQuotes (s : String) : String :=
  let l1 :=
    match s.data with
    | [] => []
    | c :: r => if isQuoteChar c then r else c :: r
  let l2 :=
    match l1.getLast? with
    | none => l1
    | some c => if isQuoteChar c then l1.dropLast else l1
  String.mk l2

/-- A parsed controller command (spec.md §3, "Command"). -/
inductive Command
  | peek (query : String)
  | set (key value : String)
  | delete (key : String)
  | answer (text : String)
deriving DecidableEq, Repr

/-- Modelled from the spec: recognition of one command form `NAME(...)`
(missing from src; spec.md §4.2): the text must start with the command name
immediately followed by an opening parenthesis and must end with a closing
parenthesis; returns the raw argument characters in between. -/
def parseNamed (name : List Char) (s : List Char) : Option (List Char) :=
  if (name ++ ['(']).isPrefixOf s ∧ s.getLast? = some ')' then
    some ((s.drop (name.length + 1)).dropLast)
  else none

/-- The argument parser on raw character lists. -/
def parseArgsList (l : List Char) : Except AgentError (List String) :=
  (parseArgsAux (l.length + 1) l).map (List.map String.mk)

/-- Modelled from the spec: the `RecursiveAgent` command parser (missing from
src; spec.md §4.2).  Recognizes the four command forms, hands the raw
argument string to the argument parser, and for ANSWER strips one layer of
outer quotes from the sole argument; any other text is
`UnrecognizedCommandError`. -/
def parseCommand (s : String) : Except AgentError Command :=
  match parseNamed "PEEK".data s.data with
  | some mid => (parseArgsList mid).map (fun args => .peek (args.getD 0 ""))
  | none =>
  match parseNamed "SET".data s.data with
  | some mid =>
    (parseArgsList mid).map (fun args => .set (args.getD 0 "") (args.getD 1 ""))
  | none =>
  match parseNamed "DELETE".data s.data with
  | some mid => (parseArgsList mid).map (fun args => .delete (args.getD 0 ""))
  | none =>
  match parseNamed "ANSWER".data s.data with
  | some mid =>
    (parseArgsList mid).map (fun args => .answer (stripOuterQuotes (args.getD 0 "")))
  | none => .error .unrecognizedCommand

/-- A context value: a plain string (from SET) or an ordered list of passage
strings (from PEEK) (spec.md §3, "Context"). -/
inductive CtxValue
  | str (s : String)
  | strList (l : List String)
deriving DecidableEq, Repr

/-- The working-memory store: an insertion-ordered key-to-value association
list (spec.md §4.3). -/
abbrev Ctx := List (String × CtxValue)

/-- Modelled from the spec: `ContextStore.set` (missing from src; spec.md
§4.3): overwrites the first binding of the key in place when present,
otherwise appends a new binding, preserving insertion order. -/
def ctxSet (ctx : Ctx) (k : String) (v : CtxValue) : Ctx :=
  match ctx with
  | [] => [(k, v)]
  | (k0, v0) :: rest => if k0 == k then (k, v) :: rest else (k0, v0) :: ctxSet rest k v

/-- Modelled from the spec: `ContextStore.delete` (missing from src; spec.md
§4.3): removes the key if present; deleting an absent key is a no-op. -/
def ctxDelete (ctx : Ctx) (k : String) : Ctx :=
  ctx.filter (fun p => p.1 != k)

/-- Lookup in the context store. -/
def ctxGet (ctx : Ctx) (k : String) : Option CtxValue :=
  (ctx.find? (fun p => p.1 == k)).map (fun p => p.2)

/-- A raw retrieval record; only the presence or absence of its `text` field
matters to the core (spec.md §3, "RetrievalResult"). -/
structure RetRecord where
  textField : Option String
deriving DecidableEq, Repr

/-- A retrieval service: query text and requested result count to ranked
records (spec.md §6). -/
abbrev RetrievalService := String → Nat → List RetRecord

/-- Modelled from the spec: `RecursiveAgent.neural_peek` (missing from src;
spec.md §4.4): queries the retrieval service with a fixed top-k of 5 and
projects each record's text field into the output, dropping records without
one and preserving the ranking order. -/
def neuralPeek (svc : RetrievalService) (q : String) : List String :=
  (svc q 5).filterMap (fun r => r.textField)

/-- The language-model service: prompt to completion; `none` models a failed
call (spec.md §6). -/
abbrev LLMService := String → Option String

/-- Modelled from the spec: the map-phase prompt combining the task with one
chunk (missing from src; spec.md §4.5 step 2). -/
def mapPrompt (task chunk : String) : String := task ++ "\n" ++ chunk

/-- Modelled from the spec: the reduce-phase prompt combining the task with
the ordered concatenation of the per-chunk summaries (missing from src;
spec.md §4.5 step 4). -/
def reducePrompt (task : String) (summaries : List String) : String :=
  task ++ "\n" ++ String.intercalate "\n" summaries

/-- Modelled from the spec: the per-chunk result written into slot `i`
(missing from src; spec.md §4.5 step 2): the model reply for chunk `i`, or
the empty string when that per-chunk call fails. -/
def slotValue (svc : LLMService) (task : String) (chunks : List String)
    (i : Nat) : String :=
  (svc (mapPrompt task (chunks.getD i ""))).getD ""

/-- The canonical map-phase output: slot `i` holds the reply for chunk `i`
(spec.md §3 invariant). -/
def mapSummaries (svc : LLMService) (task : String) (chunks : List String) :
    List String :=
  chunks.map (fun c => (svc (mapPrompt task c)).getD "")

/-- Modelled from the spec: the map phase with an explicit worker-completion
order (missing from src; spec.md §4.5 steps 2-3): result slots are pre-sized
to the chunk count; each completing worker `i` writes its chunk's result
into slot `i`; `order` lists the workers in completion order. -/
def writeSlots (svc : LLMService) (task : String) (chunks : List String)
    (order : List Nat) : List String :=
  order.foldl (fun slots i => slots.set i (slotValue svc task chunks i))
    (List.replicate chunks.length "")

/-- Modelled from the spec: `RecursiveAgent.map_reduce` (missing from src;
spec.md §4.5), with the map-phase completion order made explicit.  Returns
the final summary (`none` when the synthesis call fails, which is fatal) and
the ordered log of language-model calls issued. -/
def mapReduceWith (svc : LLMService) (task : String) (chunks : List String)
    (order : List Nat) : Option String × List String :=
  match chunks with
  | [] => (some "", [])
  | _ :: _ =>
    let synth := reducePrompt task (writeSlots svc task chunks order)
    (svc synth, chunks.map (mapPrompt task) ++ [synth])

/-- `RecursiveAgent.map_reduce` with workers completing in index order. -/
def mapReduce (svc : LLMService) (task : String) (chunks : List String) :
    Option String × List String :=
  mapReduceWith svc task chunks (List.range chunks.length)

/-- The agent's collaborators and step budget (spec.md §4.6, §6); the
controller model is an oracle giving its raw output text for each successive
call of the loop. -/
structure AgentEnv where
  controller : Nat → String
  retrieval : RetrievalService
  maxSteps : Nat

/-- The loop's mutable state: the context store and the 1-based peek counter
(spec.md §4.6). -/
structure AgentState where
  context : Ctx
  peekCount : Nat
deriving DecidableEq, Repr

/-- Terminal outcome of `run` (spec.md §4.6, §7): a successful answer, or
the distinct `StepBudgetExhausted` outcome. -/
inductive RunResult
  | answered (text : String)
  | exhausted
deriving DecidableEq, Repr

/-- Key under which the `n`-th PEEK result is stored (spec.md §3). -/
def peekKey (n : Nat) : String := "peek_step_" ++ toString n

/-- Modelled from the spec: command dispatch of the control loop (missing
from src; spec.md §4.6 step 4) for the non-terminating commands. -/
def dispatch (env : AgentEnv) (st : AgentState) : Command → AgentState
  | .peek q =>
    { context := ctxSet st.context (peekKey (st.peekCount + 1))
        (.strList (neuralPeek env.retrieval q)),
      peekCount := st.peekCount + 1 }
  | .set k v => { st with context := ctxSet st.context k (.str v) }
  | .delete k => { st with context := ctxDelete st.context k }
  | .answer _ => st

/-- Modelled from the spec: the bounded control loop (missing from src;
spec.md §4.6): each step calls the controller, parses its output and
dispatches; ANSWER terminates with `answered`; unparsable output is a no-op
for that step (spec.md §7); when the remaining budget reaches zero the loop
ends in `exhausted`.  Returns the outcome, the final state and the number of
controller calls made. -/
def runLoop (env : AgentEnv) : Nat → Nat → AgentState → RunResult × AgentState × Nat
  | _, 0, st => (.exhausted, st, 0)
  | stepIdx, rem + 1, st =>
    match parseCommand (env.controller stepIdx) with
    | .error _ =>
      let r := runLoop env (stepIdx + 1) rem st
      (r.1, r.2.1, r.2.2 + 1)
    | .ok (.answer t) => (.answered t, st, 1)
    | .ok cmd =>
      let r := runLoop env (stepIdx + 1) rem (dispatch env st cmd)
      (r.1, r.2.1, r.2.2 + 1)

/-- Modelled from the spec: `RecursiveAgent.run` (missing from src; spec.md
§4.6, §6): runs the loop from an empty context with the configured step
budget.  The user query feeds only the reasoning prompt, whose effect on the
controller the oracle already accounts for. -/
def runAgent (env : AgentEnv) (_query : String) : RunResult × AgentState × Nat :=
  runLoop env 0 env.maxSteps { context := [], peekCount := 0 }

/-- Modelled from the spec: the `RecursiveAgent` object (constructor missing
from src): the glossary defines the controller and reader models, and
`test_instantiation` fixes that construction stores the library and both
model names; `loadedModels` records the models loaded during construction,
in load order. -/
structure RecursiveAgent where
  library : String
  controller_model : String
  reader_model : String
  loadedModels : List String
deriving DecidableEq, Repr

/-- Modelled from the spec: `RecursiveAgent.__init__` (missing from src):
stores the three names and eagerly loads the controller model and the reader
model, in that order, before any `run` or `map_reduce` call. -/
def mkRecursiveAgent (library controller reader : String) : RecursiveAgent :=
  { library := library, controller_model := controller, reader_model := reader,
    loadedModels := [controller, reader] }

/-- The language-model service of Scenario C
(tests/test_recursive_agent.py::test_map_reduce). -/
def scenarioCService : LLMService := fun p =>
  if p = "summarize\ntext1" then some "summary1"
  else if p = "summarize\ntext2" then some "summary2"
  else if p = "summarize\nsummary1\nsummary2" then some "final_summary"
  else none

/-- Whether a raw controller output parses to an ANSWER command. -/
def isAnswerOutput (s : String) : Bool :=
  match parseCommand s with
  | .ok (.answer _) => true
  | _ => false

/-- The Scenario B environment
(tests/test_recursive_agent.py::test_run_flow_advanced): the controller
successively emits a PEEK, a SET and an ANSWER command, and retrieval
returns the single record whose text is "X is Y". -/
def scenarioBEnv : AgentEnv :=
  { controller := fun k =>
      if k = 0 then "PEEK(\"what is X\")"
      else if k = 1 then "SET(\"status\", \"found\")"
      else "ANSWER(\"It is Y\")",
    retrieval := fun _ _ => [⟨some "X is Y"⟩],
    maxSteps := 10 }

/-- An environment whose controller never emits a recognizable ANSWER
command. -/
def noAnswerEnv : AgentEnv :=
  { controller := fun _ => "noop", retrieval := fun _ _ => [], maxSteps := 2 }

/-- An environment interleaving SET and DELETE between two PEEK commands
before the ANSWER (spec.md §8, "Peek key numbering"). -/
def interleavedEnv : AgentEnv :=
  { controller := fun k =>
      if k = 0 then "PEEK(\"q1\")"
      else if k = 1 then "SET(\"a\", \"b\")"
      else if k = 2 then "DELETE(\"a\")"
      else if k = 3 then "PEEK(\"q2\")"
      else "ANSWER(\"done\")",
    retrieval := fun q _ => if q = "q1" then [⟨some "r1"⟩] else [⟨some "r2"⟩],
    maxSteps := 10 }

deriving instance DecidableEq for Except

/-! ### Helper lemmas: the argument parser -/

theorem dropWhile_dropWhile (p : Char → Bool) (l : List Char) :
    (l.dropWhile p).dropWhile p = l.dropWhile p := by
  induction l with
  | nil => rfl
  | cons a l ih =>
    cases h : p a with
    | true => simpa [List.dropWhile_cons, h] using ih
    | false => simp [List.dropWhile_cons, h]

theorem trimChars_dropWhile_ws (l : List Char) :
    trimChars (l.dropWhile isWs) = trimChars l := by
  simp [trimChars, dropWhile_dropWhile]

theorem trimChars_of_all_ws (l : List Char) (h : l.dropWhile isWs = []) :
    trimChars l = [] := by
  simp [trimChars, h]

theorem mem_of_mem_dropWhile {p : Char → Bool} {l : List Char} {a : Char}
    (h : a ∈ l.dropWhile p) : a ∈ l :=
  (List.dropWhile_sublist p).subset h

/-- Parsing the escaped rendering of `l` inside a quoted argument consumes
exactly up to the appended closing quote and reproduces `l`, provided `l`
does not end with a backslash. -/
theorem parseQuoted_escape (l : List Char) :
    ∀ tail : List Char, l.getLast? ≠ some '\\' →
      parseQuoted (escapeArg l ++ '"' :: tail) = .ok (l, tail) := by
  induction l with
  | nil =>
    intro tail _
    cases tail with
    | nil => rfl
    | cons t ts => rfl
  | cons c r ih =>
    intro tail h
    by_cases hc : c = '"'
    · subst hc
      have hr : r.getLast? ≠ some '\\' := by
        cases r with
        | nil => simp
        | cons e r' => rwa [List.getLast?_cons_cons] at h
      have hIH := ih tail hr
      have hesc : escapeArg ('"' :: r) ++ '"' :: tail
          = '\\' :: '"' :: (escapeArg r ++ '"' :: tail) := by
        simp [escapeArg]
      rw [hesc]
      have hstep : parseQuoted ('\\' :: '"' :: (escapeArg r ++ '"' :: tail))
          = (parseQuoted (escapeArg r ++ '"' :: tail)).map
              (fun p => ('"' :: p.1, p.2)) := by
        simp [parseQuoted]
      rw [hstep, hIH]
      rfl
    · -- c is not a quote: escapeArg keeps it
      cases r with
      | nil =>
        have hcb : c ≠ '\\' := by simpa using h
        have hesc : escapeArg [c] ++ '"' :: tail = c :: '"' :: tail := by
          simp [escapeArg, hc]
        rw [hesc]
        have hq : parseQuoted ('"' :: tail) = .ok ([], tail) := by
          cases tail with
          | nil => rfl
          | cons t ts => simp [parseQuoted]
        have hstep : parseQuoted (c :: '"' :: tail)
            = (parseQuoted ('"' :: tail)).map (fun p => (c :: p.1, p.2)) := by
          simp [parseQuoted, hc, hcb]
        rw [hstep, hq]
        rfl
      | cons e r' =>
        have hr : (e :: r').getLast? ≠ some '\\' := by
          rwa [List.getLast?_cons_cons] at h
        have hIH := ih tail hr
        have hhead : ∃ d rest2,
            escapeArg (e :: r') ++ '"' :: tail = d :: rest2 ∧ d ≠ '"' := by
          by_cases he : e = '"'
          · subst he
            exact ⟨'\\', '"' :: (escapeArg r' ++ '"' :: tail), by simp [escapeArg],
              by decide⟩
          · exact ⟨e, escapeArg r' ++ '"' :: tail, by simp [escapeArg, he], he⟩
        obtain ⟨d, rest2, hde, hdq⟩ := hhead
        rw [hde] at hIH
        have hesc : escapeArg (c :: e :: r') ++ '"' :: tail = c :: d :: rest2 := by
          rw [show escapeArg (c :: e :: r') = c :: escapeArg (e :: r') from by
            simp [escapeArg, hc]]
          rw [List.cons_append, hde]
        rw [hesc]
        have hstep : parseQuoted (c :: d :: rest2)
            = (parseQuoted (d :: rest2)).map (fun p => (c :: p.1, p.2)) := by
          simp [parseQuoted, hc, hdq]
        rw [hstep, hIH]
        rfl

theorem dropWhile_eq_nil_of_all {p : Char → Bool} {l : List Char}
    (h : ∀ x ∈ l, p x = true) : l.dropWhile p = [] := by
  induction l with
  | nil => rfl
  | cons a l ih =>
    rw [List.dropWhile_cons_of_pos (h a (List.mem_cons_self a l))]
    exact ih fun x hx => h x (List.mem_cons_of_mem a hx)

theorem escapeArg_of_no_quote {l : List Char} (h : '"' ∉ l) : escapeArg l = l := by
  induction l with
  | nil => rfl
  | cons c r ih =>
    have hc : c ≠ '"' := fun hc => h (hc ▸ List.mem_cons_self c r)
    rw [show escapeArg (c :: r) = c :: escapeArg r from by simp [escapeArg, hc]]
    rw [ih fun hm => h (List.mem_cons_of_mem c hm)]

theorem getLast?_ne_of_not_mem {l : List Char} {c : Char} (h : c ∉ l) :
    l.getLast? ≠ some c := by
  intro hl
  refine h ?_
  cases l with
  | nil => simp at hl
  | cons a t =>
    have hne : a :: t ≠ [] := by simp
    rw [List.getLast?_eq_getLast (a :: t) hne, Option.some_inj] at hl
    exact hl ▸ List.getLast_mem hne

/-- The quoting round-trip: parsing the quoted, escaped rendering of a string
that does not end in a backslash yields exactly that string. -/
theorem roundTrip_aux (s : String) (h : s.data.getLast? ≠ some '\\') :
    parseArgs (renderQuoted s) = .ok [s] := by
  obtain ⟨l⟩ := s
  have hq := parseQuoted_escape l [] (by simpa using h)
  simp only [parseArgs, renderQuoted]
  simp only [parseArgsAux, List.dropWhile_cons_of_neg (by decide : ¬isWs '"' = true)]
  simp [hq]
  rfl

theorem parseArgsAux_single (fuel : Nat) (s : List Char)
    (hcomma : ',' ∉ s) (hquote : '"' ∉ s) :
    parseArgsAux (fuel + 1) s = .ok [trimChars s] := by
  simp only [parseArgsAux]
  cases ht : s.dropWhile isWs with
  | nil => rw [trimChars_of_all_ws s ht]
  | cons c rest =>
    have hcmem : c ∈ s := by
      refine mem_of_mem_dropWhile (p := isWs) ?_
      rw [ht]; exact List.mem_cons_self c rest
    have hc : ¬c = '"' := fun hc => hquote (hc ▸ hcmem)
    have hall : ∀ x ∈ c :: rest, (x != ',') = true := by
      intro x hx
      have hxs : x ∈ s := mem_of_mem_dropWhile (p := isWs) (ht ▸ hx)
      have hne : x ≠ ',' := fun he => hcomma (he ▸ hxs)
      simpa using hne
    have hdrop : (c :: rest).dropWhile (fun x => x != ',') = [] :=
      dropWhile_eq_nil_of_all hall
    have htrim : trimChars (c :: rest) = trimChars s := by
      rw [← ht, trimChars_dropWhile_ws]
    simp [hc, hdrop, htrim]

theorem parseArgsAux_split (fuel : Nat) (a b : List Char)
    (hac : ',' ∉ a) (haq : '"' ∉ a) (hbc : ',' ∉ b) (hbq : '"' ∉ b) :
    parseArgsAux (fuel + 2) (a ++ ',' :: b) = .ok [trimChars a, trimChars b] := by
  have hsingle := parseArgsAux_single fuel b hbc hbq
  rw [show fuel + 2 = (fuel + 1) + 1 from rfl]
  rw [parseArgsAux]
  have hdw : (a ++ ',' :: b).dropWhile isWs = (a.dropWhile isWs) ++ ',' :: b := by
    rw [List.dropWhile_append]
    cases hadw : a.dropWhile isWs with
    | nil => simp [List.dropWhile_cons_of_neg (by decide : ¬isWs ',' = true)]
    | cons c rest => simp
  rw [hdw]
  cases hadw : a.dropWhile isWs with
  | nil =>
    have hta : trimChars a = [] := trimChars_of_all_ws a hadw
    have hdw2 : List.dropWhile (fun x => x != ',') (',' :: b) = ',' :: b := by
      simp [List.dropWhile_cons]
    have htw2 : List.takeWhile (fun x => x != ',') (',' :: b) = [] := by
      simp [List.takeWhile_cons]
    simp only [List.nil_append, hdw2, htw2, hsingle]
    rw [show trimChars [] = [] from rfl, hta]
    rfl
  | cons c rest =>
    have hsub : ∀ x ∈ c :: rest, x ∈ a := by
      intro x hx
      exact mem_of_mem_dropWhile (p := isWs) (hadw ▸ hx)
    have hc : ¬c = '"' := fun hc => haq (hc ▸ hsub c (List.mem_cons_self c rest))
    have hall : ∀ x ∈ c :: rest, (x != ',') = true := by
      intro x hx
      have hne : x ≠ ',' := fun he => hac (he ▸ hsub x hx)
      simpa using hne
    have hdw2 : List.dropWhile (fun x => x != ',') ((c :: rest) ++ ',' :: b)
        = ',' :: b := by
      rw [List.dropWhile_append_of_pos hall]
      simp [List.dropWhile_cons]
    have htw2 : List.takeWhile (fun x => x != ',') ((c :: rest) ++ ',' :: b)
        = c :: rest := by
      rw [List.takeWhile_append_of_pos hall]
      simp [List.takeWhile_cons]
    have htrim : trimChars (c :: rest) = trimChars a := by
      rw [← hadw, trimChars_dropWhile_ws]
    rw [show (c :: rest) ++ ',' :: b = c :: (rest ++ ',' :: b) from rfl] at hdw2 htw2
    simp only [List.cons_append, if_neg hc, hdw2, htw2, hsingle, htrim]
    rfl

theorem parseArgs_quoted_single (content : List Char)
    (hq : '"' ∉ content) (hb : '\\' ∉ content) :
    parseArgs (String.mk ('"' :: (content ++ ['"']))) = .ok [String.mk content] := by
  have h1 : renderQuoted (String.mk content) = String.mk ('"' :: (content ++ ['"'])) := by
    simp [renderQuoted, escapeArg_of_no_quote hq]
  rw [← h1]
  exact roundTrip_aux (String.mk content) (getLast?_ne_of_not_mem hb)

theorem parseArgs_split (a b : String)
    (hac : ',' ∉ a.data) (haq : '"' ∉ a.data)
    (hbc : ',' ∉ b.data) (hbq : '"' ∉ b.data) :
    parseArgs (a ++ "," ++ b)
      = .ok [String.mk (trimChars a.data), String.mk (trimChars b.data)] := by
  have hdata : (a ++ "," ++ b).data = a.data ++ ',' :: b.data := by
    simp [String.data_append]
  simp only [parseArgs, hdata]
  rw [show (a.data ++ ',' :: b.data).length + 1
      = (a.data.length + b.data.length) + 2 from by simp; omega]
  rw [parseArgsAux_split (a.data.length + b.data.length) a.data b.data hac haq hbc hbq]
  rfl

/-- C5: the ArgParser splits on top-level commas only, preserves commas and
newlines inside double-quoted arguments, unescapes backslash–double-quote
inside quoted arguments, trims unquoted arguments, and parses the Scenario D
input to exactly two arguments with inner quotes unescaped and newlines
preserved. -/
theorem c5_argparser_rules :
    (parseArgs "arg1, \"arg 2\"" = .ok ["arg1", "arg 2"])
    ∧ (parseArgs "\"val, with, comma\", val2" = .ok ["val, with, comma", "val2"])
    ∧ (parseArgs "key, \"\x7b\n \\\"json\\\": \\\"val\\\" \n\x7d\"" =
        .ok ["key", "\x7b\n \"json\": \"val\" \n\x7d"])
    ∧ (∀ a b : String, ',' ∉ a.data → '"' ∉ a.data → ',' ∉ b.data → '"' ∉ b.data →
        parseArgs (a ++ "," ++ b)
          = .ok [String.mk (trimChars a.data), String.mk (trimChars b.data)])
    ∧ (∀ content : List Char, '"' ∉ content → '\\' ∉ content →
        parseArgs (String.mk ('"' :: (content ++ ['"']))) = .ok [String.mk content]) :=
  ⟨rfl, rfl, rfl, parseArgs_split, parseArgs_quoted_single⟩

/-- Witness for C5: the universal conjuncts applied at concrete inputs:
unquoted arguments around a top-level comma are trimmed, and a quoted
argument keeps its commas and newlines. -/
theorem c5_argparser_rules_witness :
    (parseArgs (" x " ++ "," ++ " y ") = .ok ["x", "y"])
    ∧ (parseArgs (String.mk ('"' :: ("a,b\nc".data ++ ['"']))) = .ok ["a,b\nc"]) := by
  constructor
  · have h := c5_argparser_rules.2.2.2.1 " x " " y "
      (by decide) (by decide) (by decide) (by decide)
    rw [h]
    rfl
  · have h := c5_argparser_rules.2.2.2.2 "a,b\nc".data (by decide) (by decide)
    rw [h]

/-- C6 counterexample: the round-trip fails, as claimed for every string, on
the one-character string consisting of a backslash: its rendering is the
three characters quote–backslash–quote, in which the parser reads the
backslash–quote pair as an escaped quote and then finds the quoted argument
unterminated, so parsing fails with `MalformedArgumentError` instead of
returning the original string. -/
theorem c6_round_trip_counterexample :
    parseArgs (renderQuoted "\\") = .error .malformedArgument
    ∧ parseArgs (renderQuoted "\\") ≠ .ok ["\\"] := by
  refine ⟨rfl, ?_⟩
  decide

/-- C6 (amended): for every string that does not end with a backslash
character, rendering it as a quoted argument (wrapping in double quotes and
escaping each embedded double quote as backslash–double-quote) and parsing
that rendering with the ArgParser yields exactly the one-element argument
sequence holding the original string. -/
theorem c6_quoting_round_trip (s : String) (h : s.data.getLast? ≠ some '\\') :
    parseArgs (renderQuoted s) = .ok [s] :=
  roundTrip_aux s h

/-- Witness for C6: the round-trip at a concrete string containing a comma,
double quotes and a newline. -/
theorem c6_quoting_round_trip_witness :
    parseArgs (renderQuoted "a,\"b\"\nc") = .ok ["a,\"b\"\nc"] :=
  c6_quoting_round_trip "a,\"b\"\nc" (by decide)

/-! ### Helper lemmas: the reducer's slot writes -/

theorem foldl_set_length (f : Nat → String) (order : List Nat) :
    ∀ slots : List String,
      (order.foldl (fun s i => s.set i (f i)) slots).length = slots.length := by
  induction order with
  | nil => intro slots; rfl
  | cons j rest ih =>
    intro slots
    rw [List.foldl_cons, ih, List.length_set]

theorem foldl_set_getElem?_not_mem (f : Nat → String) (order : List Nat) :
    ∀ (slots : List String) (j : Nat), j ∉ order →
      (order.foldl (fun s i => s.set i (f i)) slots)[j]? = slots[j]? := by
  induction order with
  | nil => intro slots j _; rfl
  | cons i rest ih =>
    intro slots j hj
    have hji : i ≠ j := fun h => hj (h ▸ List.mem_cons_self i rest)
    rw [List.foldl_cons, ih _ j (fun h => hj (List.mem_cons_of_mem i h)),
      List.getElem?_set_ne hji]

theorem foldl_set_getElem?_mem (f : Nat → String) (order : List Nat) :
    ∀ (slots : List String) (j : Nat), j ∈ order → j < slots.length →
      (order.foldl (fun s i => s.set i (f i)) slots)[j]? = some (f j) := by
  induction order with
  | nil => intro slots j hj _; simp at hj
  | cons i rest ih =>
    intro slots j hj hlen
    rw [List.foldl_cons]
    by_cases hjr : j ∈ rest
    · exact ih _ j hjr (by rw [List.length_set]; exact hlen)
    · have hij : j = i := by
        rcases List.mem_cons.mp hj with h | h
        · exact h
        · exact absurd h hjr
      subst hij
      rw [foldl_set_getElem?_not_mem f rest _ j hjr]
      rw [List.getElem?_set_self hlen]

/-- The slot array produced by any completion order that covers exactly the
valid indices equals the canonical in-order summary list. -/
theorem writeSlots_eq_mapSummaries (svc : LLMService) (task : String)
    (chunks : List String) (order : List Nat)
    (hmem : ∀ i, i < chunks.length → i ∈ order)
    (hlt : ∀ i ∈ order, i < chunks.length) :
    writeSlots svc task chunks order = mapSummaries svc task chunks := by
  apply List.ext_getElem?
  intro n
  by_cases hn : n < chunks.length
  · rw [writeSlots, foldl_set_getElem?_mem _ order _ n (hmem n hn)
      (by rw [List.length_replicate]; exact hn)]
    rw [mapSummaries, List.getElem?_map, List.getElem?_eq_getElem hn]
    simp [slotValue, List.getD_eq_getElem?_getD, List.getElem?_eq_getElem hn]
  · rw [writeSlots, foldl_set_getElem?_not_mem _ order _ n (fun h => hn (hlt n h))]
    rw [List.getElem?_eq_none (by rw [List.length_replicate]; omega)]
    rw [mapSummaries, List.getElem?_map, List.getElem?_eq_none (by omega)]
    rfl

/-- With workers completing in index order the slots are the canonical
summaries. -/
theorem writeSlots_range (svc : LLMService) (task : String) (chunks : List String) :
    writeSlots svc task chunks (List.range chunks.length)
      = mapSummaries svc task chunks :=
  writeSlots_eq_mapSummaries svc task chunks _
    (fun _ hi => List.mem_range.mpr hi) (fun _ hi => List.mem_range.mp hi)

/-- C7: neural_peek consults the retrieval service only at the fixed result
count 5, projects exactly the text field of every record in ranking order,
and drops a record lacking a text field while keeping the others in
order. -/
theorem c7_neural_peek :
    (∀ (texts : List String) (q : String),
      neuralPeek (fun _ _ => texts.map (fun t => ⟨some t⟩)) q = texts)
    ∧ (∀ (a b : List String) (q : String),
      neuralPeek
        (fun _ _ => a.map (fun t => ⟨some t⟩) ++ ⟨none⟩ :: b.map (fun t => ⟨some t⟩))
        q = a ++ b)
    ∧ (∀ (svc svc2 : RetrievalService) (q : String),
      (∀ s, svc s 5 = svc2 s 5) → neuralPeek svc q = neuralPeek svc2 q)
    ∧ (neuralPeek (fun _ _ => [⟨some "chunk1"⟩, ⟨some "chunk2"⟩]) "test query"
        = ["chunk1", "chunk2"]) := by
  refine ⟨?_, ?_, ?_, rfl⟩
  · intro texts q
    simp [neuralPeek, List.filterMap_map, Function.comp_def]
  · intro a b q
    simp [neuralPeek, List.filterMap_map, List.filterMap_cons, Function.comp_def]
  · intro svc svc2 q h
    simp only [neuralPeek, h q]

/-- Witness for C7: two retrieval services that agree at result count 5 but
disagree elsewhere give the same peek results. -/
theorem c7_neural_peek_witness :
    neuralPeek (fun _ n => if n = 5 then [⟨some "hit"⟩] else []) "q"
      = neuralPeek (fun _ _ => [⟨some "hit"⟩]) "q" :=
  c7_neural_peek.2.2.1 _ _ "q" (fun _ => rfl)

/-- C3: map_reduce issues exactly n + 1 language-model calls when the chunk
list has length n > 0 (one per chunk plus one synthesis call whose reply is
the returned value), and issues 0 calls and returns the empty string when
n = 0. -/
theorem c3_map_reduce_cardinality (svc : LLMService) (task : String)
    (chunks : List String) :
    (chunks.length = 0 → mapReduce svc task chunks = (some "", []))
    ∧ (chunks.length ≠ 0 →
      (mapReduce svc task chunks).2.length = chunks.length + 1
      ∧ (mapReduce svc task chunks).1
          = svc (reducePrompt task (mapSummaries svc task chunks))) := by
  constructor
  · intro h
    rw [List.length_eq_zero] at h
    subst h
    rfl
  · intro h
    cases hc : chunks with
    | nil => simp [hc] at h
    | cons c cs =>
      subst hc
      have hrange := writeSlots_range svc task (c :: cs)
      simp only [List.length_cons] at hrange
      refine ⟨?_, ?_⟩
      · simp [mapReduce, mapReduceWith]
      · simp [mapReduce, mapReduceWith, hrange]

/-- Witness for C3: zero calls on no chunks; three calls on the two-chunk
Scenario C input. -/
theorem c3_map_reduce_cardinality_witness :
    mapReduce scenarioCService "summarize" ([] : List String) = (some "", [])
    ∧ (mapReduce scenarioCService "summarize" ["text1", "text2"]).2.length = 3 := by
  constructor
  · exact (c3_map_reduce_cardinality scenarioCService "summarize" []).1 rfl
  · have h := (c3_map_reduce_cardinality scenarioCService "summarize"
      ["text1", "text2"]).2 (by decide)
    rw [h.1]
    rfl

/-- C4: for a fixed chunk list, any worker-completion order covering exactly
the valid slot indices yields slot i = the reply for chunk i, a summary
sequence of the chunk list's length, and the same reduce-phase input (and
whole map_reduce result) as in-order completion. -/
theorem c4_order_invariance (svc : LLMService) (task : String)
    (chunks : List String) (order : List Nat)
    (hmem : ∀ i, i < chunks.length → i ∈ order)
    (hlt : ∀ i ∈ order, i < chunks.length) :
    writeSlots svc task chunks order = mapSummaries svc task chunks
    ∧ (writeSlots svc task chunks order).length = chunks.length
    ∧ (∀ i, i < chunks.length →
        (writeSlots svc task chunks order)[i]? = some (slotValue svc task chunks i))
    ∧ mapReduceWith svc task chunks order = mapReduce svc task chunks := by
  have heq := writeSlots_eq_mapSummaries svc task chunks order hmem hlt
  refine ⟨heq, ?_, ?_, ?_⟩
  · rw [heq, mapSummaries, List.length_map]
  · intro i hi
    rw [heq, mapSummaries, List.getElem?_map, List.getElem?_eq_getElem hi]
    simp [slotValue, List.getD_eq_getElem?_getD, List.getElem?_eq_getElem hi]
  · cases chunks with
    | nil => rfl
    | cons c cs =>
      have hrange := writeSlots_range svc task (c :: cs)
      simp only [List.length_cons] at hrange
      simp only [mapReduce, mapReduceWith, heq, hrange, writeSlots_range svc task (c :: cs)]

/-- Witness for C4: reversed completion order on the Scenario C input gives
the same result as in-order completion. -/
theorem c4_order_invariance_witness :
    mapReduceWith scenarioCService "summarize" ["text1", "text2"] [1, 0]
      = mapReduce scenarioCService "summarize" ["text1", "text2"] :=
  (c4_order_invariance scenarioCService "summarize" ["text1", "text2"] [1, 0]
    (by decide) (by decide)).2.2.2

/-- C9: a failed per-chunk call fills only that chunk's slot with the empty
string (every slot still holds its own chunk's reply) while all chunk calls
and the synthesis call are still issued; a failed synthesis call makes the
map_reduce result a failure that propagates to the caller. -/
theorem c9_failure_isolation (svc : LLMService) (task : String)
    (chunks : List String) :
    (∀ i, i < chunks.length →
      svc (mapPrompt task (chunks.getD i "")) = none →
      (mapSummaries svc task chunks)[i]? = some "")
    ∧ (∀ i, i < chunks.length →
      (mapSummaries svc task chunks)[i]? = some (slotValue svc task chunks i))
    ∧ (chunks ≠ [] →
      (mapReduce svc task chunks).2
        = chunks.map (mapPrompt task)
            ++ [reducePrompt task (mapSummaries svc task chunks)])
    ∧ (chunks ≠ [] →
      svc (reducePrompt task (mapSummaries svc task chunks)) = none →
      (mapReduce svc task chunks).1 = none) := by
  refine ⟨?_, ?_, ?_, ?_⟩
  · intro i hi hf
    rw [mapSummaries, List.getElem?_map, List.getElem?_eq_getElem hi]
    have : chunks.getD i "" = chunks[i] := by
      simp [List.getD_eq_getElem?_getD, List.getElem?_eq_getElem hi]
    rw [this] at hf
    simp [hf]
  · intro i hi
    rw [mapSummaries, List.getElem?_map, List.getElem?_eq_getElem hi]
    simp [slotValue, List.getD_eq_getElem?_getD, List.getElem?_eq_getElem hi]
  · intro h
    cases chunks with
    | nil => exact absurd rfl h
    | cons c cs =>
      have hrange := writeSlots_range svc task (c :: cs)
      simp only [List.length_cons] at hrange
      simp only [mapReduce, mapReduceWith, hrange, writeSlots_range svc task (c :: cs)]
  · intro h hf
    cases chunks with
    | nil => exact absurd rfl h
    | cons c cs =>
      have hrange := writeSlots_range svc task (c :: cs)
      simp only [List.length_cons] at hrange
      simp only [mapReduce, mapReduceWith, hrange, writeSlots_range svc task (c :: cs), hf]

/-- Witness for C9: with a service failing exactly on chunk c1's prompt the
first slot is empty while the job proceeds; with a service failing on every
call (in particular the synthesis call) the result is a propagated
failure. -/
theorem c9_failure_isolation_witness :
    (mapSummaries (fun p => if p = mapPrompt "t" "c1" then none else some "s")
      "t" ["c1", "c2"])[0]? = some ""
    ∧ (mapReduce (fun _ => none) "t" ["c1"]).1 = none := by
  constructor
  · exact (c9_failure_isolation _ "t" ["c1", "c2"]).1 0 (by decide) rfl
  · exact (c9_failure_isolation (fun _ => none) "t" ["c1"]).2.2.2 (by decide) rfl

/-! ### Helper lemmas: the context store and the control loop -/

theorem ctxGet_ctxSet (ctx : Ctx) (k : String) (v : CtxValue) :
    ctxGet (ctxSet ctx k v) k = some v := by
  induction ctx with
  | nil => simp [ctxSet, ctxGet]
  | cons p rest ih =>
    obtain ⟨k0, v0⟩ := p
    by_cases h : k0 = k
    · subst h
      simp [ctxSet, ctxGet]
    · have hbeq : (k0 == k) = false := by simp [h]
      simp [ctxSet, hbeq, ctxGet] at ih ⊢
      exact ih

theorem runLoop_calls_le (env : AgentEnv) :
    ∀ (rem i : Nat) (st : AgentState), (runLoop env i rem st).2.2 ≤ rem := by
  intro rem
  induction rem with
  | zero => intro i st; exact Nat.le_refl 0
  | succ rem ih =>
    intro i st
    rw [runLoop]
    cases hp : parseCommand (env.controller i) with
    | error e =>
      simpa using Nat.succ_le_succ (ih (i + 1) st)
    | ok cmd =>
      cases cmd with
      | answer t => simp
      | peek q => simpa using Nat.succ_le_succ (ih (i + 1) _)
      | set k v => simpa using Nat.succ_le_succ (ih (i + 1) _)
      | delete k => simpa using Nat.succ_le_succ (ih (i + 1) _)

theorem runLoop_no_answer_exhausted (env : AgentEnv) :
    ∀ (rem i : Nat) (st : AgentState),
      (∀ k, k < rem → isAnswerOutput (env.controller (i + k)) = false) →
      (runLoop env i rem st).1 = .exhausted := by
  intro rem
  induction rem with
  | zero => intro i st _; rfl
  | succ rem ih =>
    intro i st h
    have h0 := h 0 (Nat.succ_pos rem)
    have hsh : ∀ k, k < rem → isAnswerOutput (env.controller (i + 1 + k)) = false := by
      intro k hk
      have := h (k + 1) (Nat.succ_lt_succ hk)
      rwa [show i + (k + 1) = i + 1 + k from by omega] at this
    rw [runLoop]
    cases hp : parseCommand (env.controller i) with
    | error e => simpa using ih (i + 1) st hsh
    | ok cmd =>
      cases cmd with
      | answer t =>
        rw [Nat.add_zero] at h0
        rw [isAnswerOutput, hp] at h0
        simp at h0
      | peek q => simpa using ih (i + 1) _ hsh
      | set k v => simpa using ih (i + 1) _ hsh
      | delete k => simpa using ih (i + 1) _ hsh

theorem runLoop_answered_step (env : AgentEnv) :
    ∀ (rem i : Nat) (st : AgentState) (t : String),
      (runLoop env i rem st).1 = .answered t →
      ∃ k, k < rem ∧ isAnswerOutput (env.controller (i + k)) = true := by
  intro rem
  induction rem with
  | zero =>
    intro i st t h
    exact absurd h (by simp [runLoop])
  | succ rem ih =>
    intro i st t h
    rw [runLoop] at h
    cases hp : parseCommand (env.controller i) with
    | error e =>
      rw [hp] at h
      simp only [] at h
      obtain ⟨k, hk, ha⟩ := ih (i + 1) st t h
      exact ⟨k + 1, Nat.succ_lt_succ hk,
        by rwa [show i + (k + 1) = i + 1 + k from by omega]⟩
    | ok cmd =>
      cases cmd with
      | answer t2 =>
        exact ⟨0, Nat.succ_pos rem, by simp [isAnswerOutput, hp]⟩
      | peek q =>
        rw [hp] at h
        simp only [] at h
        obtain ⟨k, hk, ha⟩ := ih (i + 1) _ t h
        exact ⟨k + 1, Nat.succ_lt_succ hk,
          by rwa [show i + (k + 1) = i + 1 + k from by omega]⟩
      | set k0 v0 =>
        rw [hp] at h
        simp only [] at h
        obtain ⟨k, hk, ha⟩ := ih (i + 1) _ t h
        exact ⟨k + 1, Nat.succ_lt_succ hk,
          by rwa [show i + (k + 1) = i + 1 + k from by omega]⟩
      | delete k0 =>
        rw [hp] at h
        simp only [] at h
        obtain ⟨k, hk, ha⟩ := ih (i + 1) _ t h
        exact ⟨k + 1, Nat.succ_lt_succ hk,
          by rwa [show i + (k + 1) = i + 1 + k from by omega]⟩

theorem runLoop_result_state_blind (env : AgentEnv) :
    ∀ (rem i : Nat) (st st' : AgentState),
      (runLoop env i rem st).1 = (runLoop env i rem st').1 := by
  intro rem
  induction rem with
  | zero => intro i st st'; rfl
  | succ rem ih =>
    intro i st st'
    rw [runLoop, runLoop]
    cases hp : parseCommand (env.controller i) with
    | error e => simpa using ih (i + 1) st st'
    | ok cmd =>
      cases cmd with
      | answer t => simp
      | peek q => simpa using ih (i + 1) _ _
      | set k v => simpa using ih (i + 1) _ _
      | delete k => simpa using ih (i + 1) _ _

/-- C1: in Scenario B the run returns the answer "It is Y" and the final
context maps peek_step_1 to the one-element list ["X is Y"] and status to
"found". -/
theorem c1_scenario_b :
    (runAgent scenarioBEnv "find X").1 = .answered "It is Y"
    ∧ ctxGet (runAgent scenarioBEnv "find X").2.1.context "peek_step_1"
        = some (.strList ["X is Y"])
    ∧ ctxGet (runAgent scenarioBEnv "find X").2.1.context "status"
        = some (.str "found") :=
  ⟨rfl, rfl, rfl⟩

/-- C2: the loop makes at most maxSteps controller calls and always
terminates with a result; when no ANSWER command is parsed within the
budget the result is the distinct EXHAUSTED outcome; an answered outcome
can only arise from an ANSWER parsed within the budget, so exhaustion is
never conflated with a successful answer. -/
theorem c2_step_budget (env : AgentEnv) (q : String) :
    (runAgent env q).2.2 ≤ env.maxSteps
    ∧ ((∀ k, k < env.maxSteps → isAnswerOutput (env.controller k) = false) →
        (runAgent env q).1 = .exhausted)
    ∧ (∀ t, (runAgent env q).1 = .answered t →
        ∃ k, k < env.maxSteps ∧ isAnswerOutput (env.controller k) = true)
    ∧ (∀ t, RunResult.answered t ≠ RunResult.exhausted) := by
  refine ⟨runLoop_calls_le env env.maxSteps 0 _, ?_, ?_, ?_⟩
  · intro h
    refine runLoop_no_answer_exhausted env env.maxSteps 0 _ ?_
    intro k hk
    rw [Nat.zero_add]
    exact h k hk
  · intro t ht
    obtain ⟨k, hk, ha⟩ := runLoop_answered_step env env.maxSteps 0 _ t ht
    rw [Nat.zero_add] at ha
    exact ⟨k, hk, ha⟩
  · intro t h
    exact RunResult.noConfusion h

/-- Witness for C2: with a controller that never answers and a budget of 2,
the run ends exhausted. -/
theorem c2_step_budget_witness : (runAgent noAnswerEnv "q").1 = .exhausted :=
  (c2_step_budget noAnswerEnv "q").2.1 (fun _ _ => rfl)

/-- C8: each PEEK increments the 1-based peek counter exactly once and
stores its retrieval result under peek_step_(counter); SET and DELETE leave
the peek counter unchanged; the loop's outcome never depends on the agent
state (in particular not on the peek counter), only the overall step budget
and the controller outputs decide termination; and in a concrete run with
SET and DELETE interleaved between two PEEKs the keys are peek_step_1 and
peek_step_2 in order. -/
theorem c8_peek_numbering :
    (∀ (env : AgentEnv) (st : AgentState) (q : String),
      (dispatch env st (.peek q)).peekCount = st.peekCount + 1
      ∧ ctxGet (dispatch env st (.peek q)).context (peekKey (st.peekCount + 1))
          = some (.strList (neuralPeek env.retrieval q)))
    ∧ (∀ (env : AgentEnv) (st : AgentState) (k v : String),
      (dispatch env st (.set k v)).peekCount = st.peekCount
      ∧ (dispatch env st (.delete k)).peekCount = st.peekCount)
    ∧ (∀ (env : AgentEnv) (rem i : Nat) (st st' : AgentState),
      (runLoop env i rem st).1 = (runLoop env i rem st').1)
    ∧ ((runAgent interleavedEnv "go").1 = .answered "done"
      ∧ ctxGet (runAgent interleavedEnv "go").2.1.context "peek_step_1"
          = some (.strList ["r1"])
      ∧ ctxGet (runAgent interleavedEnv "go").2.1.context "peek_step_2"
          = some (.strList ["r2"])
      ∧ ctxGet (runAgent interleavedEnv "go").2.1.context "a" = none
      ∧ (runAgent interleavedEnv "go").2.1.peekCount = 2) := by
  refine ⟨?_, ?_, runLoop_result_state_blind, ⟨rfl, rfl, rfl, rfl, rfl⟩⟩
  · intro env st q
    exact ⟨rfl, ctxGet_ctxSet st.context (peekKey (st.peekCount + 1)) _⟩
  · intro env st k v
    exact ⟨rfl, rfl⟩

/-- C10: constructing a RecursiveAgent from a library name, a controller
model name and a reader model name stores all three and eagerly loads
exactly two models — the controller and the reader, in that order — during
construction. -/
theorem c10_constructor_loads_two_models (lib cm rm : String) :
    (mkRecursiveAgent lib cm rm).loadedModels.length = 2
    ∧ (mkRecursiveAgent lib cm rm).loadedModels = [cm, rm]
    ∧ (mkRecursiveAgent lib cm rm).library = lib
    ∧ (mkRecursiveAgent lib cm rm).controller_model = cm
    ∧ (mkRecursiveAgent lib cm rm).reader_model = rm :=
  ⟨rfl, rfl, rfl, rfl, rfl⟩

end RecAgent
